import Mathlib

/-!
Verification of the dispute-distribution sender's `SendTask`
(`node/network/dispute-distribution/src/sender/send_task.rs`).

Shallow embedding conventions:
* `AuthorityDiscoveryId`, `Hash`, `CandidateHash`, `SessionIndex` are `Nat`.
* The `HashMap<AuthorityDiscoveryId, DeliveryStatus>` of deliveries is an
  association list `List (Nat × DeliveryStatus)`; `HashSet` is an
  insertion-ordered duplicate-free list built with `setInsert`.
* The runtime session-info lookup (`RuntimeInfo::get_session_info_by_index`)
  is a function `Nat → Nat → Option ExtendedSessionInfo` (head, session index);
  `none` models a lookup failure (the `?` in the Rust code).
* Spawning of a response-wait task (`ctx.spawn`) can fail; this is modelled by
  a predicate `spawn : Nat → Bool` telling whether the spawn for a given
  receiver succeeds.  The `RemoteHandle` payload of `Pending` is opaque to all
  of the code's logic and is dropped in the model.
* `ValidatorIndex` wraps a `u32`; the Rust comparison
  `Some(ValidatorIndex(*i as _)) != our_index` casts the `usize` position `i`
  to `u32`, modelled as `i % 2 ^ 32`.
-/

namespace DisputeSender

/-- Outcome of one response-wait task (`TaskResult` in the source). -/
inductive TaskResult where
  | Succeeded
  | Failed
deriving DecidableEq, Repr

/-- Per-peer delivery status (`DeliveryStatus` in the source).  The
`RemoteHandle<()>` carried by `Pending` is never inspected by the code, so the
model drops it. -/
inductive DeliveryStatus where
  | Pending
  | Succeeded
deriving DecidableEq, Repr

/-- Message from a response-wait task (`FromSendingTask::Finished`):
candidate hash, authority, and result. -/
inductive FromSendingTask where
  | Finished (candidate : Nat) (authority : Nat) (result : TaskResult)
deriving DecidableEq, Repr

/-- `DisputeResponse` from the network protocol: only `Confirmed`. -/
inductive DisputeResponse where
  | Confirmed
deriving DecidableEq, Repr

/-- The fields of `DisputeRequest` that `send_task.rs` reads:
`request.0.candidate_receipt.descriptor.relay_parent`,
`request.0.session_index` and `request.0.candidate_receipt.hash()`. -/
structure DisputeRequest where
  relay_parent : Nat
  session_index : Nat
  candidate_hash : Nat
deriving DecidableEq, Repr

/-- The parts of `SessionInfo` the code reads: `validators` (used only through
its length) and `discovery_keys`. -/
structure SessionInfo where
  validators : List Nat
  discovery_keys : List Nat
deriving DecidableEq, Repr

/-- The parts of `ExtendedSessionInfo` the code reads: the session info and
`validator_info.our_index`. -/
structure ExtendedSessionInfo where
  session_info : SessionInfo
  our_index : Option Nat
deriving DecidableEq, Repr

/-- The mutable state of `SendTask`: the request, the deliveries map and the
failed-sends flag.  (The `tx` channel endpoint carries no state the code
observes.) -/
structure SendTask where
  request : DisputeRequest
  deliveries : List (Nat × DeliveryStatus)
  has_failed_sends : Bool
deriving DecidableEq, Repr

/-! ### HashMap / HashSet operations on the association-list model -/

/-- `HashMap::get` — first entry with the given key. -/
def mapGet (m : List (Nat × DeliveryStatus)) (a : Nat) : Option DeliveryStatus :=
  (m.find? (fun kv => kv.1 == a)).map Prod.snd

/-- `HashMap::contains_key`. -/
def contains_key (m : List (Nat × DeliveryStatus)) (a : Nat) : Bool :=
  m.any (fun kv => kv.1 == a)

/-- `HashMap::insert` — overwrite in place if the key is present, otherwise
append. -/
def mapInsert (m : List (Nat × DeliveryStatus)) (k : Nat) (v : DeliveryStatus) :
    List (Nat × DeliveryStatus) :=
  if contains_key m k then m.map (fun kv => if kv.1 == k then (kv.1, v) else kv)
  else m ++ [(k, v)]

/-- `HashMap::extend` — insert every entry of `l` in order. -/
def mapExtend (m l : List (Nat × DeliveryStatus)) : List (Nat × DeliveryStatus) :=
  l.foldl (fun acc kv => mapInsert acc kv.1 kv.2) m

/-- `HashMap::remove`. -/
def mapRemove (m : List (Nat × DeliveryStatus)) (k : Nat) : List (Nat × DeliveryStatus) :=
  m.filter (fun kv => kv.1 != k)

/-- The keys of the map are pairwise distinct (true of any real `HashMap`). -/
def keysNodup (m : List (Nat × DeliveryStatus)) : Prop :=
  (m.map Prod.fst).Nodup

instance (m : List (Nat × DeliveryStatus)) : Decidable (keysNodup m) := by
  unfold keysNodup; infer_instance

/-- `HashSet::insert` on an insertion-ordered duplicate-free list. -/
def setInsert (s : List Nat) (a : Nat) : List Nat :=
  if a ∈ s then s else s ++ [a]

/-- `HashSet::extend` — insert every element in order. -/
def setExtend (s : List Nat) (l : List Nat) : List Nat :=
  l.foldl setInsert s

/-! ### The authority resolver (`SendTask::get_relevant_validators`) -/

/-- The per-session contribution in `get_relevant_validators`: enumerate
`keys`, drop the position equal to our own validator index (the `usize`
position is cast to `u32`, hence the `% 2 ^ 32`), keep the discovery keys,
and insert them all into the accumulated set. -/
def addDiscovered (acc : List Nat) (keys : List Nat) (our : Option Nat) : List Nat :=
  setExtend acc
    ((keys.enum.filter (fun p => decide (some (p.1 % 2 ^ 32) ≠ our))).map Prod.snd)

/-- `SendTask::get_relevant_validators`: parachain validators of the dispute's
session (the first `validators.len()` discovery keys, looked up at the
request's relay parent) plus all discovery keys of every active session,
always excluding our own index.  Any failed lookup aborts with `none`. -/
def get_relevant_validators (runtime : Nat → Nat → Option ExtendedSessionInfo)
    (request : DisputeRequest) (active_sessions : List (Nat × Nat)) :
    Option (List Nat) := do
  let info ← runtime request.relay_parent request.session_index
  let validator_count := info.session_info.validators.length
  let base := addDiscovered []
    (info.session_info.discovery_keys.take validator_count) info.our_index
  active_sessions.foldlM (fun acc sh => do
    let info ← runtime sh.2 sh.1
    pure (addDiscovered acc info.session_info.discovery_keys info.our_index)) base

/-! ### The dispatcher (`send_requests`) and the send task operations -/

/-- `send_requests`: for each receiver, spawn a response-wait task (a spawn
failure is fatal and aborts the whole call with `none`) and record a
`Pending` status.  The batch submission to the network bridge carries no
state. -/
def send_requests (spawn : Nat → Bool) (receivers : List Nat) :
    Option (List (Nat × DeliveryStatus)) :=
  receivers.foldlM
    (fun statuses receiver =>
      if spawn receiver then some (mapInsert statuses receiver DeliveryStatus.Pending)
      else none)
    []

/-- The `add_authorities` computed at the top of `refresh_sends`: the
new authorities that have no entry in the deliveries map yet. -/
def addAuthorities (st : SendTask) (new_authorities : List Nat) : List Nat :=
  new_authorities.filter (fun a => !(contains_key st.deliveries a))

/-- `SendTask::refresh_sends`.  Returns the state after the call together with
`true` for `Ok(())` and `false` for an error; since `refresh_sends` takes
`&mut self`, mutations made before an early return persist, which the
returned state reflects. -/
def refresh_sends (runtime : Nat → Nat → Option ExtendedSessionInfo)
    (active_sessions : List (Nat × Nat)) (spawn : Nat → Bool) (st : SendTask) :
    SendTask × Bool :=
  match get_relevant_validators runtime st.request active_sessions with
  | none => (st, false)
  | some new_authorities =>
    let add_authorities := addAuthorities st new_authorities
    -- Get rid of dead/irrelevant tasks/statuses:
    let st1 := { st with
      deliveries := st.deliveries.filter (fun kv => decide (kv.1 ∈ new_authorities)) }
    match send_requests spawn add_authorities with
    | none => (st1, false)
    | some new_statuses =>
      ({ st1 with
          deliveries := mapExtend st1.deliveries new_statuses,
          has_failed_sends := false }, true)

/-- `SendTask::has_failed_sends`. -/
def has_failed_sends (st : SendTask) : Bool :=
  st.has_failed_sends

/-- `SendTask::on_finished_send`: on `Failed`, set the flag and remove the
entry; on `Succeeded`, overwrite the entry in place if present, otherwise do
nothing. -/
def on_finished_send (st : SendTask) (authority : Nat) (result : TaskResult) : SendTask :=
  match result with
  | TaskResult.Failed =>
    { st with
        has_failed_sends := true,
        deliveries := mapRemove st.deliveries authority }
  | TaskResult.Succeeded =>
    match mapGet st.deliveries authority with
    | none => st
    | some _ =>
      { st with
          deliveries := st.deliveries.map
            (fun kv => if kv.1 == authority then (kv.1, DeliveryStatus.Succeeded) else kv) }

/-- `SendTask::new`: start from empty state and perform one refresh. -/
def SendTask.new (runtime : Nat → Nat → Option ExtendedSessionInfo)
    (active_sessions : List (Nat × Nat)) (spawn : Nat → Bool)
    (request : DisputeRequest) : Option SendTask :=
  let st : SendTask :=
    { request := request, deliveries := [], has_failed_sends := false }
  match refresh_sends runtime active_sessions spawn st with
  | (st1, true) => some st1
  | (_, false) => none

/-! ### The response-wait task (`wait_response_task`) -/

/-- `wait_response_task`: await the response (here: its already-resolved
result), build the completion message, and feed it into the channel; a feed
error is logged and swallowed.  The model returns the message it feeds
together with the function's `()` return value, which does not depend on the
channel's behaviour. -/
def wait_response_task (result : Except Nat DisputeResponse)
    (candidate_hash receiver : Nat)
    (feed : FromSendingTask → Except Nat Unit) : FromSendingTask × Unit :=
  let msg := match result with
    | Except.error _ =>
      FromSendingTask.Finished candidate_hash receiver TaskResult.Failed
    | Except.ok DisputeResponse.Confirmed =>
      FromSendingTask.Finished candidate_hash receiver TaskResult.Succeeded
  let ret := match feed msg with
    | Except.error _ => ()   -- logged, swallowed
    | Except.ok _ => ()
  (msg, ret)

/-- Spec-side description of the resolver's result (for the refinement claim
about `get_relevant_validators`), following the spec's words: the union of
(1) the discovery identities of the first `validator_count` entries of the
dispute session's membership, excluding the entry at the caller's own index,
and (2) for each currently active session, all discovery identities of that
session's membership, again excluding the caller's own index. -/
def resolverSpecMem (runtime : Nat → Nat → Option ExtendedSessionInfo)
    (request : DisputeRequest) (active_sessions : List (Nat × Nat)) (v : Nat) : Prop :=
  (∃ info, runtime request.relay_parent request.session_index = some info ∧
    ∃ i, i < info.session_info.validators.length ∧ some i ≠ info.our_index ∧
      info.session_info.discovery_keys[i]? = some v) ∨
  (∃ sh ∈ active_sessions, ∃ info, runtime sh.2 sh.1 = some info ∧
    ∃ i, some i ≠ info.our_index ∧ info.session_info.discovery_keys[i]? = some v)

/-- A key occurs in the association list. -/
def keyMem (a : Nat) (m : List (Nat × DeliveryStatus)) : Prop :=
  a ∈ m.map Prod.fst

/-! ### Concrete inputs for instantiating the theorems on executable data -/

/-- A runtime in which every lookup succeeds with a three-key session
(two validators, one extra authority), and we are not a member. -/
def rtA : Nat → Nat → Option ExtendedSessionInfo := fun _ _ =>
  some { session_info := { validators := [10, 20], discovery_keys := [10, 20, 30] },
         our_index := none }

/-- A runtime in which every lookup fails. -/
def rtNone : Nat → Nat → Option ExtendedSessionInfo := fun _ _ => none

/-- A sample dispute request. -/
def reqA : DisputeRequest := { relay_parent := 0, session_index := 7, candidate_hash := 99 }

/-- One active session. -/
def asA : List (Nat × Nat) := [(7, 0)]

/-- A send task mid-flight: peer 10 already succeeded, peer 5 (no longer
relevant) pending, a failure recorded since the last refresh. -/
def stA : SendTask :=
  { request := reqA,
    deliveries := [(10, DeliveryStatus.Succeeded), (5, DeliveryStatus.Pending)],
    has_failed_sends := true }

/-- The state `stA` reaches after a successful refresh against `rtA`. -/
def stA' : SendTask :=
  { request := reqA,
    deliveries := [(10, DeliveryStatus.Succeeded), (20, DeliveryStatus.Pending),
      (30, DeliveryStatus.Pending)],
    has_failed_sends := false }

/-- A send task with a single pending delivery to peer 4. -/
def stB : SendTask :=
  { request := reqA, deliveries := [(4, DeliveryStatus.Pending)], has_failed_sends := false }

/-! ## Lemmas about the map and set operations -/

theorem contains_key_iff {m : List (Nat × DeliveryStatus)} {a : Nat} :
    contains_key m a = true ↔ keyMem a m := by
  simp [contains_key, keyMem, List.any_eq_true, List.mem_map, beq_iff_eq]

theorem mapGet_isSome_iff {m : List (Nat × DeliveryStatus)} {a : Nat} :
    (∃ s, mapGet m a = some s) ↔ keyMem a m := by
  simp only [mapGet, Option.map_eq_some']
  constructor
  · rintro ⟨s, kv, hfind, _⟩
    have := List.find?_some hfind
    have hm := List.mem_of_find?_eq_some hfind
    simp only [beq_iff_eq] at this
    exact List.mem_map.mpr ⟨kv, hm, this⟩
  · intro h
    obtain ⟨kv, hkv, he⟩ := List.mem_map.mp h
    have : (m.find? (fun kv => kv.1 == a)).isSome := by
      apply List.find?_isSome.mpr
      exact ⟨kv, hkv, by simp [he]⟩
    obtain ⟨kv', hkv'⟩ := Option.isSome_iff_exists.mp this
    exact ⟨kv'.2, kv', hkv', rfl⟩

theorem mapGet_eq_none_iff {m : List (Nat × DeliveryStatus)} {a : Nat} :
    mapGet m a = none ↔ ¬ keyMem a m := by
  rw [← mapGet_isSome_iff]
  cases h : mapGet m a <;> simp [h]

theorem mapGet_filter (p : Nat → Bool) (m : List (Nat × DeliveryStatus)) (a : Nat) :
    mapGet (m.filter (fun kv => p kv.1)) a = if p a then mapGet m a else none := by
  induction m with
  | nil => simp [mapGet]
  | cons kv t ih =>
    obtain ⟨k, v⟩ := kv
    by_cases hk : k = a
    · subst hk
      by_cases hp : p k
      · simp [mapGet, List.filter_cons, hp, List.find?_cons]
      · simp only [List.filter_cons, hp, if_neg, Bool.false_eq_true, not_false_iff,
          ite_false, ih]
    · have hne : (k == a) = false := by simp [hk]
      by_cases hp : p k
      · simp only [List.filter_cons, hp, ite_true]
        simp only [mapGet, List.find?_cons, hne] at ih ⊢
        simpa using ih
      · simp only [List.filter_cons, hp, Bool.false_eq_true, ite_false, ih]
        simp only [mapGet, List.find?_cons, hne]

theorem mapGet_replace_self (m : List (Nat × DeliveryStatus)) (a : Nat) (v : DeliveryStatus) :
    mapGet (m.map (fun kv => if kv.1 == a then (kv.1, v) else kv)) a
      = (mapGet m a).map (fun _ => v) := by
  induction m with
  | nil => simp [mapGet]
  | cons kv t ih =>
    obtain ⟨k, w⟩ := kv
    by_cases hk : k = a
    · subst hk
      simp [mapGet, List.find?_cons]
    · have hne : (k == a) = false := by simp [hk]
      simp only [List.map_cons, hne, Bool.false_eq_true, ite_false]
      simp only [mapGet, List.find?_cons, hne] at ih ⊢
      exact ih

theorem mapGet_replace_ne (m : List (Nat × DeliveryStatus)) (a x : Nat) (v : DeliveryStatus)
    (h : x ≠ a) :
    mapGet (m.map (fun kv => if kv.1 == a then (kv.1, v) else kv)) x = mapGet m x := by
  induction m with
  | nil => simp [mapGet]
  | cons kv t ih =>
    obtain ⟨k, w⟩ := kv
    by_cases hk : k = a
    · subst hk
      have hkx : ¬ k = x := fun he => h he.symm
      have hne : (k == x) = false := by simp [hkx]
      simp only [List.map_cons, beq_self_eq_true, ite_true]
      simp only [mapGet, List.find?_cons, hne] at ih ⊢
      exact ih
    · have hne : (k == a) = false := by simp [hk]
      simp only [List.map_cons, hne, Bool.false_eq_true, ite_false]
      by_cases hx : k = x
      · subst hx
        simp [mapGet, List.find?_cons]
      · have hnx : (k == x) = false := by simp [hx]
        simp only [mapGet, List.find?_cons, hnx] at ih ⊢
        exact ih

theorem keys_replace (m : List (Nat × DeliveryStatus)) (a : Nat) (v : DeliveryStatus) :
    (m.map (fun kv => if kv.1 == a then (kv.1, v) else kv)).map Prod.fst
      = m.map Prod.fst := by
  rw [List.map_map]
  apply List.map_congr_left
  intro kv _
  by_cases h : kv.1 = a <;> simp [h]

theorem mapGet_mapInsert_self (m : List (Nat × DeliveryStatus)) (k : Nat) (v : DeliveryStatus) :
    mapGet (mapInsert m k v) k = some v := by
  unfold mapInsert
  by_cases hc : contains_key m k
  · rw [if_pos hc, mapGet_replace_self]
    obtain ⟨s, hs⟩ := mapGet_isSome_iff.mpr (contains_key_iff.mp hc)
    simp [hs]
  · rw [if_neg hc]
    have hk : ¬ keyMem k m := fun h => hc (contains_key_iff.mpr h)
    have hnone : mapGet m k = none := mapGet_eq_none_iff.mpr hk
    induction m with
    | nil => simp [mapGet]
    | cons kv t ih =>
      obtain ⟨a, w⟩ := kv
      have hka : ¬ a = k := by
        intro he; exact hk (by simp [keyMem, he])
      have hne : (a == k) = false := by simp [hka]
      simp only [List.cons_append, mapGet, List.find?_cons, hne] at hnone ⊢
      have hk' : ¬ keyMem k t := by
        intro h; exact hk (by simp [keyMem] at h ⊢; exact Or.inr h)
      have hc' : ¬ contains_key t k = true := fun h => hk' (contains_key_iff.mp h)
      exact ih hc' hk' hnone

theorem mapGet_mapInsert_ne (m : List (Nat × DeliveryStatus)) (k x : Nat) (v : DeliveryStatus)
    (h : x ≠ k) :
    mapGet (mapInsert m k v) x = mapGet m x := by
  unfold mapInsert
  by_cases hc : contains_key m k
  · rw [if_pos hc, mapGet_replace_ne _ _ _ _ h]
  · rw [if_neg hc]
    induction m with
    | nil =>
      have hkx : ¬ k = x := fun he => h he.symm
      have hne : (k == x) = false := by simp [hkx]
      simp [mapGet, List.find?_cons, hne]
    | cons kv t ih =>
      simp only [List.cons_append, mapGet, List.find?_cons] at ih ⊢
      by_cases hx : (kv.1 == x) = true
      · simp [hx]
      · simp only [hx, Bool.false_eq_true, ite_false] at ih ⊢
        have hc' : ¬ contains_key t k = true := by
          intro hh
          apply hc
          rw [contains_key_iff] at hh ⊢
          simp [keyMem] at hh ⊢
          exact Or.inr hh
        exact ih hc'

theorem keyMem_mapInsert {m : List (Nat × DeliveryStatus)} {k x : Nat} {v : DeliveryStatus} :
    keyMem x (mapInsert m k v) ↔ x = k ∨ keyMem x m := by
  unfold mapInsert
  by_cases hc : contains_key m k
  · rw [if_pos hc]
    unfold keyMem
    rw [keys_replace]
    constructor
    · exact Or.inr
    · rintro (he | hm)
      · subst he; exact contains_key_iff.mp hc
      · exact hm
  · rw [if_neg hc]
    simp [keyMem, or_comm]

theorem keysNodup_mapInsert {m : List (Nat × DeliveryStatus)} {k : Nat} {v : DeliveryStatus}
    (h : keysNodup m) : keysNodup (mapInsert m k v) := by
  unfold mapInsert
  by_cases hc : contains_key m k
  · rw [if_pos hc]
    unfold keysNodup
    rw [keys_replace]
    exact h
  · rw [if_neg hc]
    unfold keysNodup at h ⊢
    simp only [List.map_append, List.map_cons, List.map_nil]
    rw [List.nodup_append]
    refine ⟨h, List.nodup_singleton k, ?_⟩
    intro x hx
    simp only [List.mem_singleton]
    intro he
    subst he
    exact hc (contains_key_iff.mpr hx)

theorem mapGet_mapExtend_of_not_key {l m : List (Nat × DeliveryStatus)} {a : Nat}
    (h : ¬ keyMem a l) : mapGet (mapExtend m l) a = mapGet m a := by
  induction l generalizing m with
  | nil => rfl
  | cons kv t ih =>
    have h1 : kv.1 ≠ a := by
      intro he; exact h (by simp [keyMem, he])
    have h2 : ¬ keyMem a t := by
      intro hh; exact h (by simp [keyMem] at hh ⊢; exact Or.inr hh)
    show mapGet (mapExtend (mapInsert m kv.1 kv.2) t) a = mapGet m a
    rw [ih h2, mapGet_mapInsert_ne _ _ _ _ (fun he => h1 he.symm)]

theorem keyMem_mapExtend {l m : List (Nat × DeliveryStatus)} {a : Nat} :
    keyMem a (mapExtend m l) ↔ keyMem a m ∨ keyMem a l := by
  induction l generalizing m with
  | nil => simp [mapExtend, keyMem]
  | cons kv t ih =>
    show keyMem a (mapExtend (mapInsert m kv.1 kv.2) t) ↔ _
    rw [ih, keyMem_mapInsert]
    simp [keyMem, List.mem_map, or_comm, or_assoc, or_left_comm]

theorem keysNodup_mapExtend {l m : List (Nat × DeliveryStatus)}
    (h : keysNodup m) : keysNodup (mapExtend m l) := by
  induction l generalizing m with
  | nil => exact h
  | cons kv t ih => exact ih (keysNodup_mapInsert h)

theorem keysNodup_filter {m : List (Nat × DeliveryStatus)} (p : Nat × DeliveryStatus → Bool)
    (h : keysNodup m) : keysNodup (m.filter p) := by
  unfold keysNodup at h ⊢
  exact ((List.filter_sublist m).map Prod.fst).nodup h

theorem mem_setInsert {s : List Nat} {a x : Nat} :
    x ∈ setInsert s a ↔ x ∈ s ∨ x = a := by
  unfold setInsert
  by_cases hm : a ∈ s
  · rw [if_pos hm]
    constructor
    · exact Or.inl
    · rintro (hx | he)
      · exact hx
      · subst he; exact hm
  · rw [if_neg hm]
    simp

theorem nodup_setInsert {s : List Nat} {a : Nat} (h : s.Nodup) : (setInsert s a).Nodup := by
  unfold setInsert
  by_cases hm : a ∈ s
  · rw [if_pos hm]; exact h
  · rw [if_neg hm]
    rw [List.nodup_append]
    exact ⟨h, List.nodup_singleton a, fun x hx => by
      simp only [List.mem_singleton]; intro he; subst he; exact hm hx⟩

theorem mem_setExtend {l s : List Nat} {x : Nat} :
    x ∈ setExtend s l ↔ x ∈ s ∨ x ∈ l := by
  induction l generalizing s with
  | nil => simp [setExtend]
  | cons b t ih =>
    show x ∈ setExtend (setInsert s b) t ↔ _
    rw [ih, mem_setInsert]
    simp [or_comm, or_assoc, or_left_comm]

theorem nodup_setExtend {l s : List Nat} (h : s.Nodup) : (setExtend s l).Nodup := by
  induction l generalizing s with
  | nil => exact h
  | cons b t ih => exact ih (nodup_setInsert h)

/-! ## Characterization of the dispatcher and the resolver -/

theorem send_requests_go {spawn : Nat → Bool} {rs : List Nat}
    {acc l : List (Nat × DeliveryStatus)}
    (h : rs.foldlM
      (fun statuses receiver =>
        if spawn receiver then some (mapInsert statuses receiver DeliveryStatus.Pending)
        else none) acc = some l)
    (a : Nat) :
    (keyMem a l ↔ keyMem a acc ∨ a ∈ rs) ∧ (keysNodup acc → keysNodup l) := by
  induction rs generalizing acc with
  | nil =>
    simp only [List.foldlM_nil, pure, Option.some.injEq] at h
    subst h
    simp
  | cons r t ih =>
    simp only [List.foldlM_cons] at h
    by_cases hs : spawn r
    · rw [if_pos hs] at h
      simp only [Option.bind_eq_bind, Option.some_bind] at h
      obtain ⟨hmem, hnd⟩ := ih h
      constructor
      · rw [hmem, keyMem_mapInsert]
        simp [List.mem_cons, or_comm, or_assoc, or_left_comm]
      · exact fun hh => hnd (keysNodup_mapInsert hh)
    · rw [if_neg hs] at h
      simp at h

theorem send_requests_char {spawn : Nat → Bool} {rs : List Nat}
    {l : List (Nat × DeliveryStatus)}
    (h : send_requests spawn rs = some l) (a : Nat) :
    (keyMem a l ↔ a ∈ rs) ∧ keysNodup l := by
  unfold send_requests at h
  obtain ⟨hmem, hnd⟩ := send_requests_go h a
  refine ⟨?_, hnd (by simp [keysNodup])⟩
  rw [hmem]
  simp [keyMem]

theorem mem_addDiscovered {acc keys : List Nat} {our : Option Nat} {v : Nat} :
    v ∈ addDiscovered acc keys our ↔
      v ∈ acc ∨ ∃ i, some (i % 2 ^ 32) ≠ our ∧ keys[i]? = some v := by
  unfold addDiscovered
  rw [mem_setExtend]
  simp only [List.mem_map, List.mem_filter, decide_eq_true_eq]
  constructor
  · rintro (ha | ⟨⟨i, b⟩, ⟨hmem, hne⟩, hv⟩)
    · exact Or.inl ha
    · subst hv
      exact Or.inr ⟨i, hne, List.mk_mem_enum_iff_getElem?.mp hmem⟩
  · rintro (ha | ⟨i, hne, hget⟩)
    · exact Or.inl ha
    · exact Or.inr ⟨(i, v), ⟨List.mk_mem_enum_iff_getElem?.mpr hget, hne⟩, rfl⟩

theorem nodup_addDiscovered {acc keys : List Nat} {our : Option Nat}
    (h : acc.Nodup) : (addDiscovered acc keys our).Nodup :=
  nodup_setExtend h

theorem mem_addDiscovered_of_bound {acc keys : List Nat} {our : Option Nat} {v : Nat}
    (hlen : keys.length ≤ 2 ^ 32) :
    v ∈ addDiscovered acc keys our ↔
      v ∈ acc ∨ ∃ i, some i ≠ our ∧ keys[i]? = some v := by
  rw [mem_addDiscovered]
  apply or_congr Iff.rfl
  constructor
  · rintro ⟨i, hne, hget⟩
    have hi : i < keys.length := by
      by_contra hge
      rw [List.getElem?_eq_none (Nat.le_of_not_lt hge)] at hget
      exact Option.noConfusion hget
    rw [Nat.mod_eq_of_lt (Nat.lt_of_lt_of_le hi hlen)] at hne
    exact ⟨i, hne, hget⟩
  · rintro ⟨i, hne, hget⟩
    have hi : i < keys.length := by
      by_contra hge
      rw [List.getElem?_eq_none (Nat.le_of_not_lt hge)] at hget
      exact Option.noConfusion hget
    refine ⟨i, ?_, hget⟩
    rw [Nat.mod_eq_of_lt (Nat.lt_of_lt_of_le hi hlen)]
    exact hne

theorem grv_loop {runtime : Nat → Nat → Option ExtendedSessionInfo}
    {as : List (Nat × Nat)} {acc l : List Nat}
    (h : as.foldlM (fun acc sh => do
        let info ← runtime sh.2 sh.1
        pure (addDiscovered acc info.session_info.discovery_keys info.our_index)) acc
      = some l)
    (v : Nat) :
    (v ∈ l ↔ v ∈ acc ∨ ∃ sh ∈ as, ∃ info, runtime sh.2 sh.1 = some info ∧
        ∃ i, some (i % 2 ^ 32) ≠ info.our_index ∧
          info.session_info.discovery_keys[i]? = some v)
    ∧ (acc.Nodup → l.Nodup) := by
  induction as generalizing acc with
  | nil =>
    simp only [List.foldlM_nil, pure, Option.some.injEq] at h
    subst h
    simp
  | cons sh t ih =>
    simp only [List.foldlM_cons] at h
    cases hrt : runtime sh.2 sh.1 with
    | none =>
      rw [hrt] at h
      simp at h
    | some info =>
      rw [hrt] at h
      simp only [Option.bind_eq_bind, Option.some_bind, pure, Option.some_bind] at h
      obtain ⟨hmem, hnd⟩ := ih h
      constructor
      · rw [hmem, mem_addDiscovered]
        constructor
        · rintro ((ha | ⟨i, hne, hget⟩) | ⟨sh', hsh', rest⟩)
          · exact Or.inl ha
          · exact Or.inr ⟨sh, List.mem_cons_self sh t, info, hrt, i, hne, hget⟩
          · exact Or.inr ⟨sh', List.mem_cons_of_mem sh hsh', rest⟩
        · rintro (ha | ⟨sh', hsh', info', hrt', i, hne, hget⟩)
          · exact Or.inl (Or.inl ha)
          · rcases List.mem_cons.mp hsh' with he | ht
            · subst he
              rw [hrt] at hrt'
              cases hrt'
              exact Or.inl (Or.inr ⟨i, hne, hget⟩)
            · exact Or.inr ⟨sh', ht, info', hrt', i, hne, hget⟩
      · exact fun hh => hnd (nodup_addDiscovered hh)

theorem get_relevant_validators_char {runtime : Nat → Nat → Option ExtendedSessionInfo}
    {request : DisputeRequest} {as : List (Nat × Nat)} {l : List Nat}
    (h : get_relevant_validators runtime request as = some l) (v : Nat) :
    (v ∈ l ↔ (∃ info, runtime request.relay_parent request.session_index = some info ∧
        ∃ i, some (i % 2 ^ 32) ≠ info.our_index ∧
          (info.session_info.discovery_keys.take
            info.session_info.validators.length)[i]? = some v)
      ∨ (∃ sh ∈ as, ∃ info, runtime sh.2 sh.1 = some info ∧
        ∃ i, some (i % 2 ^ 32) ≠ info.our_index ∧
          info.session_info.discovery_keys[i]? = some v))
    ∧ l.Nodup := by
  unfold get_relevant_validators at h
  cases hrt : runtime request.relay_parent request.session_index with
  | none =>
    rw [hrt] at h
    simp at h
  | some info =>
    rw [hrt] at h
    simp only [Option.bind_eq_bind, Option.some_bind] at h
    obtain ⟨hmem, hnd⟩ := grv_loop h v
    refine ⟨?_, hnd (nodup_addDiscovered List.nodup_nil)⟩
    rw [hmem, mem_addDiscovered]
    constructor
    · rintro ((ha | ⟨i, hne, hget⟩) | rest)
      · exact absurd ha (List.not_mem_nil v)
      · exact Or.inl ⟨info, rfl, i, hne, hget⟩
      · exact Or.inr rest
    · rintro (⟨info', hrt', i, hne, hget⟩ | rest)
      · injection hrt' with hh
        subst hh
        exact Or.inl (Or.inr ⟨i, hne, hget⟩)
      · exact Or.inr rest

/-- Successful refresh, destructed: the resolver returned some target list,
all dispatches succeeded, and the new state is the pruned map extended with
the new statuses, with the flag cleared. -/
theorem refresh_sends_success {runtime : Nat → Nat → Option ExtendedSessionInfo}
    {as : List (Nat × Nat)} {spawn : Nat → Bool} {st st1 : SendTask}
    (h : refresh_sends runtime as spawn st = (st1, true)) :
    ∃ T new_statuses,
      get_relevant_validators runtime st.request as = some T ∧
      send_requests spawn (addAuthorities st T) = some new_statuses ∧
      st1 = { st with
        deliveries := mapExtend
          (st.deliveries.filter (fun kv => decide (kv.1 ∈ T))) new_statuses,
        has_failed_sends := false } := by
  unfold refresh_sends at h
  cases hT : get_relevant_validators runtime st.request as with
  | none =>
    rw [hT] at h
    exact absurd (congrArg Prod.snd h) (by simp)
  | some T =>
    rw [hT] at h
    cases hsr : send_requests spawn (addAuthorities st T) with
    | none =>
      simp only [hsr] at h
      exact absurd (congrArg Prod.snd h) (by simp)
    | some ns =>
      simp only [hsr] at h
      exact ⟨T, ns, rfl, hsr, (congrArg Prod.fst h).symm⟩

/-- A key survives pruning by membership iff it is a key and relevant. -/
theorem keyMem_filter_mem {m : List (Nat × DeliveryStatus)} {T : List Nat} {a : Nat} :
    keyMem a (m.filter (fun kv => decide (kv.1 ∈ T))) ↔ keyMem a m ∧ a ∈ T := by
  simp only [keyMem, List.mem_map, List.mem_filter, decide_eq_true_eq]
  constructor
  · rintro ⟨kv, ⟨hkv, hT⟩, he⟩
    exact ⟨⟨kv, hkv, he⟩, he ▸ hT⟩
  · rintro ⟨⟨kv, hkv, he⟩, hT⟩
    exact ⟨kv, ⟨hkv, he ▸ hT⟩, he⟩

/-- Membership in `add_authorities`: relevant but not yet tracked. -/
theorem mem_addAuthorities {st : SendTask} {T : List Nat} {a : Nat} :
    a ∈ addAuthorities st T ↔ a ∈ T ∧ contains_key st.deliveries a = false := by
  simp [addAuthorities, List.mem_filter, Bool.not_eq_true']

/-- An errored refresh leaves the failed-sends flag unchanged (the flag is
assigned only after both fallible steps have succeeded). -/
theorem refresh_sends_error_flag {runtime : Nat → Nat → Option ExtendedSessionInfo}
    {as : List (Nat × Nat)} {spawn : Nat → Bool} {st : SendTask}
    (h : (refresh_sends runtime as spawn st).2 = false) :
    (refresh_sends runtime as spawn st).1.has_failed_sends = st.has_failed_sends := by
  unfold refresh_sends at h ⊢
  cases hT : get_relevant_validators runtime st.request as with
  | none => simp
  | some T =>
    cases hsr : send_requests spawn (addAuthorities st T) with
    | none => simp [hsr]
    | some ns =>
      rw [hT] at h
      simp only [hsr] at h
      exact absurd h (by simp)

/-! ## The claims -/

/-- C1: after any successful `refresh_sends`, the key set of the deliveries
map equals the target set just resolved by `get_relevant_validators`: every
tracked peer is a member of the target set, and every target has an entry. -/
theorem refresh_success_tracked_iff_target
    (runtime : Nat → Nat → Option ExtendedSessionInfo) (as : List (Nat × Nat))
    (spawn : Nat → Bool) (st st1 : SendTask) (T : List Nat) (a : Nat)
    (hT : get_relevant_validators runtime st.request as = some T)
    (hr : refresh_sends runtime as spawn st = (st1, true)) :
    contains_key st1.deliveries a = true ↔ a ∈ T := by
  obtain ⟨T', ns, hT', hsr, hst⟩ := refresh_sends_success hr
  rw [hT] at hT'
  injection hT' with hTT
  subst hTT
  subst hst
  rw [contains_key_iff]
  show keyMem a (mapExtend _ ns) ↔ a ∈ T
  rw [keyMem_mapExtend, keyMem_filter_mem, (send_requests_char hsr a).1,
    mem_addAuthorities]
  constructor
  · rintro (⟨_, hT2⟩ | ⟨hT2, _⟩) <;> exact hT2
  · intro hT2
    cases hc : contains_key st.deliveries a with
    | true => exact Or.inl ⟨contains_key_iff.mp hc, hT2⟩
    | false => exact Or.inr ⟨hT2, rfl⟩

/-- C2: refresh never removes an entry whose peer is in the just-resolved
target set (a still-relevant `Pending` or `Succeeded` entry survives with the
same status), it dispatches new sends only for peers without an entry, and
the map keeps pairwise-distinct keys, so there are never two simultaneous
entries (in particular two `Pending` ones) for the same peer. -/
theorem refresh_preserves_relevant_entries
    (runtime : Nat → Nat → Option ExtendedSessionInfo) (as : List (Nat × Nat))
    (spawn : Nat → Bool) (st st1 : SendTask) (T : List Nat) (a : Nat)
    (s : DeliveryStatus) (res : Bool)
    (hT : get_relevant_validators runtime st.request as = some T)
    (hr : refresh_sends runtime as spawn st = (st1, res))
    (hmem : a ∈ T) (hget : mapGet st.deliveries a = some s)
    (hnd : keysNodup st.deliveries) :
    mapGet st1.deliveries a = some s
    ∧ (∀ b ∈ addAuthorities st T, contains_key st.deliveries b = false)
    ∧ keysNodup st1.deliveries := by
  have hpruned : mapGet (st.deliveries.filter (fun kv => decide (kv.1 ∈ T))) a = some s := by
    have := mapGet_filter (fun x => decide (x ∈ T)) st.deliveries a
    rw [this, if_pos (by simpa using hmem)]
    exact hget
  have hndp : keysNodup (st.deliveries.filter (fun kv => decide (kv.1 ∈ T))) :=
    keysNodup_filter _ hnd
  have hadd : ∀ b ∈ addAuthorities st T, contains_key st.deliveries b = false :=
    fun b hb => (mem_addAuthorities.mp hb).2
  unfold refresh_sends at hr
  rw [hT] at hr
  cases hsr : send_requests spawn (addAuthorities st T) with
  | none =>
    simp only [hsr] at hr
    injection hr with h1 h2
    subst h1
    exact ⟨hpruned, hadd, hndp⟩
  | some ns =>
    simp only [hsr] at hr
    injection hr with h1 h2
    subst h1
    refine ⟨?_, hadd, keysNodup_mapExtend hndp⟩
    show mapGet (mapExtend _ ns) a = some s
    have hkey : keyMem a st.deliveries :=
      mapGet_isSome_iff.mp ⟨s, hget⟩
    have hnk : ¬ keyMem a ns := by
      intro hk
      have hin := (send_requests_char hsr a).1.mp hk
      have hfalse := (mem_addAuthorities.mp hin).2
      have hc := contains_key_iff.mpr hkey
      rw [hfalse] at hc
      exact Bool.noConfusion hc
    rw [mapGet_mapExtend_of_not_key hnk]
    exact hpruned

/-- C7: if any membership lookup fails during a refresh, the refresh aborts
with an error and the state — deliveries map and flag — is left completely
untouched. -/
theorem lookup_failure_leaves_state_untouched
    (runtime : Nat → Nat → Option ExtendedSessionInfo) (as : List (Nat × Nat))
    (spawn : Nat → Bool) (st : SendTask)
    (h : get_relevant_validators runtime st.request as = none) :
    refresh_sends runtime as spawn st = (st, false) := by
  unfold refresh_sends
  rw [h]

/-- C9: refresh is not atomic on dispatch failure — pruning happens before
dispatch, so when spawning fails the refresh returns an error with every
no-longer-relevant entry already removed (and no new entries merged in, the
flag untouched). -/
theorem refresh_dispatch_failure_partial_prune
    (runtime : Nat → Nat → Option ExtendedSessionInfo) (as : List (Nat × Nat))
    (spawn : Nat → Bool) (st : SendTask) (T : List Nat)
    (hT : get_relevant_validators runtime st.request as = some T)
    (hfail : send_requests spawn (addAuthorities st T) = none) :
    refresh_sends runtime as spawn st =
      ({ st with deliveries := st.deliveries.filter (fun kv => decide (kv.1 ∈ T)) },
        false) := by
  unfold refresh_sends
  rw [hT]
  simp only [hfail]

/-- C10: a refresh that returns an error (from membership resolution or from
dispatch) leaves `has_failed_sends` unchanged; only a successful refresh
clears a pending failure signal. -/
theorem failed_refresh_preserves_flag
    (runtime : Nat → Nat → Option ExtendedSessionInfo) (as : List (Nat × Nat))
    (spawn : Nat → Bool) (st : SendTask)
    (h : (refresh_sends runtime as spawn st).2 = false) :
    (refresh_sends runtime as spawn st).1.has_failed_sends = st.has_failed_sends :=
  refresh_sends_error_flag h

/-- C3: whenever every session lookup stays within the `u32` index range (as
any real session does), the authority resolver returns exactly the union of
the validator-only discovery identities of the dispute's session and, for
each active session, the full authority set of discovery identities — in
both cases excluding the caller's own index — as a duplicate-free set. -/
theorem get_relevant_validators_matches_spec
    (runtime : Nat → Nat → Option ExtendedSessionInfo) (request : DisputeRequest)
    (as : List (Nat × Nat)) (l : List Nat) (v : Nat)
    (hbound : ∀ h si info, runtime h si = some info →
      info.session_info.discovery_keys.length ≤ 2 ^ 32)
    (hres : get_relevant_validators runtime request as = some l) :
    (v ∈ l ↔ resolverSpecMem runtime request as v) ∧ l.Nodup := by
  obtain ⟨hmem, hnd⟩ := get_relevant_validators_char hres v
  refine ⟨?_, hnd⟩
  rw [hmem]
  unfold resolverSpecMem
  apply or_congr
  · constructor
    · rintro ⟨info, hrt, i, hne, hget⟩
      rw [List.getElem?_take] at hget
      by_cases hi : i < info.session_info.validators.length
      · rw [if_pos hi] at hget
        have hlt : i < info.session_info.discovery_keys.length := by
          by_contra hge
          rw [List.getElem?_eq_none (Nat.le_of_not_lt hge)] at hget
          exact Option.noConfusion hget
        rw [Nat.mod_eq_of_lt
          (Nat.lt_of_lt_of_le hlt (hbound _ _ _ hrt))] at hne
        exact ⟨info, hrt, i, hi, hne, hget⟩
      · rw [if_neg hi] at hget
        exact Option.noConfusion hget
    · rintro ⟨info, hrt, i, hi, hne, hget⟩
      have hlt : i < info.session_info.discovery_keys.length := by
        by_contra hge
        rw [List.getElem?_eq_none (Nat.le_of_not_lt hge)] at hget
        exact Option.noConfusion hget
      refine ⟨info, hrt, i, ?_, ?_⟩
      · rw [Nat.mod_eq_of_lt (Nat.lt_of_lt_of_le hlt (hbound _ _ _ hrt))]
        exact hne
      · rw [List.getElem?_take, if_pos hi]
        exact hget
  · constructor
    · rintro ⟨sh, hsh, info, hrt, i, hne, hget⟩
      have hlt : i < info.session_info.discovery_keys.length := by
        by_contra hge
        rw [List.getElem?_eq_none (Nat.le_of_not_lt hge)] at hget
        exact Option.noConfusion hget
      rw [Nat.mod_eq_of_lt (Nat.lt_of_lt_of_le hlt (hbound _ _ _ hrt))] at hne
      exact ⟨sh, hsh, info, hrt, i, hne, hget⟩
    · rintro ⟨sh, hsh, info, hrt, i, hne, hget⟩
      have hlt : i < info.session_info.discovery_keys.length := by
        by_contra hge
        rw [List.getElem?_eq_none (Nat.le_of_not_lt hge)] at hget
        exact Option.noConfusion hget
      refine ⟨sh, hsh, info, hrt, i, ?_, hget⟩
      rw [Nat.mod_eq_of_lt (Nat.lt_of_lt_of_le hlt (hbound _ _ _ hrt))]
      exact hne

/-- C4: `has_failed_sends` is false immediately after a successful refresh,
becomes true exactly upon the next `Failed` completion (a `Succeeded`
completion never changes it), and a failed refresh afterwards does not clear
it. -/
theorem failed_sends_flag_lifecycle
    (runtime runtime2 : Nat → Nat → Option ExtendedSessionInfo)
    (as as2 : List (Nat × Nat)) (spawn spawn2 : Nat → Bool)
    (st st1 : SendTask) (a b : Nat)
    (hr : refresh_sends runtime as spawn st = (st1, true)) :
    st1.has_failed_sends = false
    ∧ (on_finished_send st1 a TaskResult.Failed).has_failed_sends = true
    ∧ (on_finished_send st1 b TaskResult.Succeeded).has_failed_sends
        = st1.has_failed_sends
    ∧ ((refresh_sends runtime2 as2 spawn2
          (on_finished_send st1 a TaskResult.Failed)).2 = false →
        (refresh_sends runtime2 as2 spawn2
          (on_finished_send st1 a TaskResult.Failed)).1.has_failed_sends = true) := by
  obtain ⟨T, ns, _, _, hst⟩ := refresh_sends_success hr
  refine ⟨by rw [hst], rfl, ?_, ?_⟩
  · unfold on_finished_send
    cases h : mapGet st1.deliveries b <;> simp
  · intro h
    rw [refresh_sends_error_flag h]
    rfl

/-- C5: a `Failed` completion for peer P leaves P absent from the deliveries
map, regardless of its prior state, and sets the failed-sends flag. -/
theorem failed_completion_removes_entry (st : SendTask) (a : Nat) :
    mapGet (on_finished_send st a TaskResult.Failed).deliveries a = none
    ∧ (on_finished_send st a TaskResult.Failed).has_failed_sends = true := by
  refine ⟨?_, rfl⟩
  show mapGet (mapRemove st.deliveries a) a = none
  unfold mapRemove
  have := mapGet_filter (fun x => x != a) st.deliveries a
  rw [this, if_neg (by simp)]

/-- C6: a `Succeeded` completion for a peer with no entry is a no-op (state
unchanged); for a peer with an entry it overwrites the entry to `Succeeded`
and leaves the failed-sends flag unchanged. -/
theorem succeeded_completion_update (st : SendTask) (a : Nat) (s : DeliveryStatus) :
    (mapGet st.deliveries a = none → on_finished_send st a TaskResult.Succeeded = st)
    ∧ (mapGet st.deliveries a = some s →
        mapGet (on_finished_send st a TaskResult.Succeeded).deliveries a
          = some DeliveryStatus.Succeeded
        ∧ (on_finished_send st a TaskResult.Succeeded).has_failed_sends
            = st.has_failed_sends) := by
  constructor
  · intro h
    unfold on_finished_send
    rw [h]
  · intro h
    unfold on_finished_send
    rw [h]
    refine ⟨?_, rfl⟩
    show mapGet (st.deliveries.map _) a = _
    rw [mapGet_replace_self, h]
    rfl

/-- C8: the response-wait task reports `Failed` for an errored response and
`Succeeded` for a confirmed acknowledgment, and its result never depends on
whether feeding the completion channel fails — a feed error is swallowed. -/
theorem wait_response_task_outcomes (e candidate_hash receiver : Nat)
    (feed : FromSendingTask → Except Nat Unit)
    (res : Except Nat DisputeResponse) :
    (wait_response_task (Except.error e) candidate_hash receiver feed).1
      = FromSendingTask.Finished candidate_hash receiver TaskResult.Failed
    ∧ (wait_response_task (Except.ok DisputeResponse.Confirmed)
        candidate_hash receiver feed).1
      = FromSendingTask.Finished candidate_hash receiver TaskResult.Succeeded
    ∧ wait_response_task res candidate_hash receiver feed
      = wait_response_task res candidate_hash receiver (fun _ => Except.ok ()) := by
  refine ⟨rfl, rfl, ?_⟩
  cases res with
  | error e2 => rfl
  | ok r => cases r; rfl

/-! ## Witnesses -/

/-- Witness for C1 at the concrete refresh of `stA`. -/
theorem refresh_success_tracked_iff_target_witness :
    contains_key stA'.deliveries 20 = true ↔ 20 ∈ [10, 20, 30] :=
  refresh_success_tracked_iff_target rtA asA (fun _ => true) stA stA' [10, 20, 30] 20
    rfl rfl

/-- Witness for C2: peer 10's `Succeeded` entry survives the refresh. -/
theorem refresh_preserves_relevant_entries_witness :
    mapGet stA'.deliveries 10 = some DeliveryStatus.Succeeded :=
  (refresh_preserves_relevant_entries rtA asA (fun _ => true) stA stA' [10, 20, 30] 10
    DeliveryStatus.Succeeded true rfl rfl (by decide) rfl (by decide)).1

/-- Witness for C3 at the concrete runtime `rtA`. -/
theorem get_relevant_validators_matches_spec_witness :
    (20 ∈ [10, 20, 30] ↔ resolverSpecMem rtA reqA asA 20) ∧ ([10, 20, 30] : List Nat).Nodup :=
  get_relevant_validators_matches_spec rtA reqA asA [10, 20, 30] 20
    (by
      intro h si info hh
      injection hh with hh2
      subst hh2
      decide)
    rfl

/-- Witness for C4: the flag is cleared by the successful refresh of `stA`. -/
theorem failed_sends_flag_lifecycle_witness : stA'.has_failed_sends = false :=
  (failed_sends_flag_lifecycle rtA rtNone asA [] (fun _ => true) (fun _ => true)
    stA stA' 5 10 rfl).1

/-- Witness for C6: the pending entry of `stB` is overwritten to `Succeeded`. -/
theorem succeeded_completion_update_witness :
    mapGet (on_finished_send stB 4 TaskResult.Succeeded).deliveries 4
      = some DeliveryStatus.Succeeded :=
  ((succeeded_completion_update stB 4 DeliveryStatus.Pending).2 rfl).1

/-- Witness for C7: with the always-failing runtime, refresh leaves `stA`
untouched. -/
theorem lookup_failure_leaves_state_untouched_witness :
    refresh_sends rtNone asA (fun _ => true) stA = (stA, false) :=
  lookup_failure_leaves_state_untouched rtNone asA (fun _ => true) stA rfl

/-- Witness for C9: with a failing spawner, the refresh of `stA` errors with
the map already pruned. -/
theorem refresh_dispatch_failure_partial_prune_witness :
    refresh_sends rtA asA (fun _ => false) stA =
      ({ stA with
          deliveries := stA.deliveries.filter (fun kv => decide (kv.1 ∈ [10, 20, 30])) },
        false) :=
  refresh_dispatch_failure_partial_prune rtA asA (fun _ => false) stA [10, 20, 30]
    rfl rfl

/-- Witness for C10: the failed refresh of `stA` keeps the flag set. -/
theorem failed_refresh_preserves_flag_witness :
    (refresh_sends rtNone asA (fun _ => true) stA).1.has_failed_sends
      = stA.has_failed_sends :=
  failed_refresh_preserves_flag rtNone asA (fun _ => true) stA rfl

end DisputeSender
